import Mathlib

/- A shallow embedding of `src/shut/tasks/core.py`: the task execution state
machine (`Task.execute`), the task/group registries (`TaskGroup`, `TaskGraph`),
selection (`TaskGraph.select`) and scheduling (`TaskGraph.ordered_tasks`).
Tasks and groups are identified by their string ids throughout; the Python
dictionaries keyed by id are embedded as lists in insertion order. -/

namespace Shut

/-- Task lifecycle states, translated from `TaskStatus` in core.py. -/
inductive TaskStatus where
  | PENDING
  | RUNNING
  | SKIPPED
  | SUCCESS
  | ERROR
  deriving DecidableEq, Repr

/-- Per-task mutable state: `Task._status` and `Task._error` (the latter holds
the recorded exception kind once `execute` stores it, `none` before). -/
structure TaskState where
  status : TaskStatus
  error : Option String
  deriving DecidableEq, Repr

/-- Outcome of the overridden `Task._execute_internal` action body: return
normally, raise the `Skip` signal, or raise any other exception, carrying the
exception kind. -/
inductive ActionResult where
  | success
  | skip
  | fail (exc : String)

/-- One observable step of `Task.execute`: a write to `_status`, a write to
`_error`, or a `trigger_event` call with the given event name. -/
inductive EStep where
  | setStatus (s : TaskStatus)
  | setError (k : String)
  | emit (name : String)
  deriving DecidableEq, Repr

/-- Whether `Task.execute` returns normally or lets an exception escape to the
caller. -/
inductive ExecOutcome where
  | normal
  | raised (exc : String)
  deriving DecidableEq, Repr

/-- Straight-line trace of `Task.execute` (core.py lines 114-135) from a given
starting status, paired with how the call finishes.  If the status is not
`PENDING`, a `RuntimeError` is raised before any event or status write.
Otherwise the status is set to `RUNNING` first and `task.begin` is emitted
second.  On success the status becomes `SUCCESS`; on `Skip` it becomes
`SKIPPED`; on any other exception the handler sets the status to `ERROR` and
then evaluates `ExcInfo(*sys.exc_info())` — core.py never imports `sys`, so
that lookup raises `NameError` before `self._error` is assigned; the `finally`
block still emits `task.end` and the `NameError` escapes to the caller.  The
`EStep.setError` step therefore never occurs in any trace of this code. -/
def executeRun (status : TaskStatus) (act : ActionResult) : List EStep × ExecOutcome :=
  if status = TaskStatus.PENDING then
    let pre := [EStep.setStatus TaskStatus.RUNNING, EStep.emit "task.begin"]
    match act with
    | ActionResult.success =>
        (pre ++ [EStep.setStatus TaskStatus.SUCCESS, EStep.emit "task.end"], ExecOutcome.normal)
    | ActionResult.skip =>
        (pre ++ [EStep.setStatus TaskStatus.SKIPPED, EStep.emit "task.end"], ExecOutcome.normal)
    | ActionResult.fail _ =>
        (pre ++ [EStep.setStatus TaskStatus.ERROR, EStep.emit "task.end"],
          ExecOutcome.raised "NameError: name 'sys' is not defined")
  else ([], ExecOutcome.raised "RuntimeError")

/-- Effect of one trace step on the task's state; `emit` does not change it. -/
def applyStep (ts : TaskState) : EStep → TaskState
  | EStep.setStatus s => { ts with status := s }
  | EStep.setError k => { ts with error := some k }
  | EStep.emit _ => ts

/-- Replay a trace of `execute` over a task state. -/
def runSteps (ts : TaskState) (l : List EStep) : TaskState :=
  l.foldl applyStep ts

/-- Whether a step is the emission of the `task.begin` event. -/
def isBeginEmit (s : EStep) : Bool :=
  s == EStep.emit "task.begin"

/-- Whether a step writes the status field. -/
def isSetStatus : EStep → Bool
  | EStep.setStatus _ => true
  | _ => false

/-- Whether a step writes a terminal status (`SUCCESS`, `SKIPPED` or `ERROR`). -/
def isTerminalSet : EStep → Bool
  | EStep.setStatus TaskStatus.SUCCESS => true
  | EStep.setStatus TaskStatus.SKIPPED => true
  | EStep.setStatus TaskStatus.ERROR => true
  | _ => false

/-- True when some status write occurs strictly before the first `task.begin`
emission in the trace. -/
def statusChangedBeforeBegin (tr : List EStep) : Bool :=
  (tr.takeWhile (fun s => !(isBeginEmit s))).any isSetStatus

/-- True when no terminal status write occurs before the first `task.begin`
emission in the trace. -/
def beginBeforeTerminal (tr : List EStep) : Bool :=
  (tr.takeWhile (fun s => !(isBeginEmit s))).all (fun s => !(isTerminalSet s))

/-- True when a `task.end` emission occurs after the last status write of the
trace, i.e. the status has already reached its final value when `task.end`
fires. -/
def endAfterFinalStatus (tr : List EStep) : Bool :=
  (tr.reverse.takeWhile (fun s => !(isSetStatus s))).contains (EStep.emit "task.end")

/-- A direct child task or the id of a direct child group, as collected by
`TaskGraph.select`: the Python code builds a set mixing `Task` objects
(embedded as `task` with the task's id) with plain strings (`str`). -/
inductive SelElem where
  | task (id : String)
  | str (s : String)
  deriving DecidableEq, Repr

/-- The children of one `TaskGroup`: `_tasks.values()` and `_groups.values()`,
recorded by their full ids (`Task.id` / `TaskGroup.id`). -/
structure SGroup where
  childTasks : List String
  childGroups : List String
  deriving DecidableEq, Repr

/-- A built `TaskGraph`: the flat task registry `_tasks` (ids in insertion
order, which is also the node insertion order of the internal `nx.DiGraph`),
the flat group registry `_groups`, and the dependency edge list, where an edge
`(a, b)` means `b` depends on `a` (`_add_edge(a, b)` from `b.depends_on(a)`). -/
structure SGraph where
  tasks : List String
  groups : List (String × SGroup)
  edges : List (String × String)
  deriving DecidableEq, Repr

/-- Result of `TaskGraph.__getitem__`: groups are consulted before tasks, and a
missing name raises `KeyError` (embedded as `none`). -/
inductive Item where
  | task (id : String)
  | group (id : String) (g : SGroup)
  deriving DecidableEq, Repr

/-- `TaskGraph.__getitem__`: try `self._groups[name]`, fall back to
`self._tasks[name]`. -/
def SGraph.getItem (g : SGraph) (name : String) : Option Item :=
  match g.groups.lookup name with
  | some gr => some (Item.group name gr)
  | none => if name ∈ g.tasks then some (Item.task name) else none

/-- Add an element to the set being built by `select` (Python `set.add` /
`set.update`), keeping a canonical first-insertion order. -/
def insertElem (acc : List SelElem) (e : SelElem) : List SelElem :=
  if e ∈ acc then acc else acc ++ [e]

/-- The loop body of `TaskGraph.select` over the requested names.  For a group
the code adds the group's direct child tasks and then the *ids* (plain
strings) of its direct child groups; it does not recurse into sub-groups.  A
name that resolves to neither raises `KeyError` (`none`). -/
def selectAux (g : SGraph) : List String → List SelElem → Option (List SelElem)
  | [], acc => some acc
  | name :: rest, acc =>
    match g.getItem name with
    | none => none
    | some (Item.task id) => selectAux g rest (insertElem acc (SelElem.task id))
    | some (Item.group _ gr) =>
        selectAux g rest
          ((gr.childGroups.map SelElem.str).foldl insertElem
            (gr.childTasks.foldl (fun a tid => insertElem a (SelElem.task tid)) acc))

/-- `TaskGraph.select` on an already-normalized list argument. -/
def SGraph.select (g : SGraph) (value : List String) : Option (List SelElem) :=
  selectAux g value []

/-- The `str | List[str]` argument of `TaskGraph.select` and
`TaskGraph.ordered_tasks`. -/
inductive SelectArg where
  | one (s : String)
  | many (l : List String)

/-- `TaskGraph.select` including the `isinstance(value, str)` normalization
that wraps a single string into a one-element list. -/
def SGraph.selectA (g : SGraph) : SelectArg → Option (List SelElem)
  | SelectArg.one s => g.select [s]
  | SelectArg.many l => g.select l

/-- The `t.id for t in self.select(select)` comprehension in `ordered_tasks`:
reading `.id` off a plain string element raises `AttributeError` (`none`). -/
def elemIds : List SelElem → Option (List String)
  | [] => some []
  | SelElem.task id :: rest => (elemIds rest).map (fun l => id :: l)
  | SelElem.str _ :: _ => none

/-- Modelled from the spec: `nx.algorithms.topological_sort` is external
library code not part of this repository.  Per the spec it must produce a
topological ordering of the node-induced subgraph, fail on a cycle, and break
ties deterministically, stable by insertion order.  `noIncoming es ns n` holds
when no edge of `es` whose source is still in `ns` points at `n`. -/
def noIncoming (es : List (String × String)) (ns : List String) (n : String) : Bool :=
  !(es.any (fun e => decide (e.2 = n ∧ e.1 ∈ ns)))

/-- Modelled from the spec: Kahn's algorithm, repeatedly emitting the first
remaining node (in insertion order) that has no incoming edge from a remaining
node; `none` when the remaining nodes all lie on or behind a cycle. -/
def kahnAux (es : List (String × String)) : Nat → List String → Option (List String)
  | 0, ns => if ns.isEmpty then some [] else none
  | fuel + 1, ns =>
    if ns.isEmpty then some []
    else
      (ns.find? (noIncoming es ns)).bind
        (fun n => (kahnAux es fuel (ns.erase n)).map (fun l => n :: l))

/-- Modelled from the spec: the topological sort used by `ordered_tasks`,
returning `none` exactly when the graph restricted to `ns` has a cycle (the
`NetworkXUnfeasible` error). -/
def topoSort (ns : List String) (es : List (String × String)) : Option (List String) :=
  kahnAux es ns.length ns

/-- Sources of the in-edges of `x`, in edge insertion order
(`self._graph.in_edges(task_id)`). -/
def predsOf (es : List (String × String)) (x : String) : List String :=
  (es.filter (fun e => decide (e.2 = x))).map Prod.fst

/-- The backward closure loop of `ordered_tasks` (core.py lines 322-327): a
FIFO queue seeded with the selected ids; each iteration pops the front id,
adds it to the visited set and appends all in-edge sources to the queue — with
no check whether they were already visited, so on a cycle the loop never
terminates.  The `fuel` argument bounds the number of iterations we unfold;
`none` means the loop is still running after `fuel` iterations. -/
def walkAux (es : List (String × String)) : Nat → List String → List String → Option (List String)
  | 0, queue, acc => if queue.isEmpty then some acc else none
  | _ + 1, [], acc => some acc
  | fuel + 1, x :: rest, acc =>
    walkAux es fuel (rest ++ predsOf es x) (if x ∈ acc then acc else acc ++ [x])

/-- Result of `TaskGraph.ordered_tasks`: a list of task ids, or the exception
it raises (`KeyError` from `select`, `AttributeError` from reading `.id` off a
string in the selection set, `NetworkXUnfeasible` from the topological sort),
or `outOfFuel` when the closure loop has not finished within the allotted
iterations. -/
inductive OTResult where
  | ok (l : List String)
  | keyError
  | attrError
  | cycleError
  | outOfFuel
  deriving DecidableEq, Repr

/-- The tail of `ordered_tasks` for a resolved selection queue: run the
backward closure loop (bounded by `fuel`), build the node-induced subgraph on
the visited set — the `nx` subgraph view iterates nodes and edges in the
original insertion order, filtered — and topologically sort it. -/
def sortClosure (g : SGraph) (ids : List String) (fuel : Nat) : OTResult :=
  match walkAux g.edges fuel ids [] with
  | none => OTResult.outOfFuel
  | some visited =>
    match
      topoSort (g.tasks.filter (fun t => decide (t ∈ visited)))
        (g.edges.filter (fun e => decide (e.1 ∈ visited ∧ e.2 ∈ visited))) with
    | some l => OTResult.ok l
    | none => OTResult.cycleError

/-- `TaskGraph.ordered_tasks` (core.py lines 313-333).  Without a selection it
topologically sorts the full graph.  With a selection it resolves the
selection, reads the `.id` of every selected element, walks the in-edges
backward to collect the dependency closure, and topologically sorts the
node-induced subgraph on that closure.  `fuel` bounds the backward-walk
iterations (the Python loop has no such bound and simply does not terminate
when the closure has a cycle). -/
def SGraph.ordered_tasks (g : SGraph) (sel : Option SelectArg) (fuel : Nat) : OTResult :=
  match sel with
  | none =>
    match topoSort g.tasks g.edges with
    | some l => OTResult.ok l
    | none => OTResult.cycleError
  | some arg =>
    match g.selectA arg with
    | none => OTResult.keyError
    | some elems =>
      match elemIds elems with
      | none => OTResult.attrError
      | some ids => sortClosure g ids fuel

/-- Reflexive-transitive reachability along dependency edges: `Reach es a b`
means there is a (possibly empty) forward path from `a` to `b`, i.e. `b`
transitively depends on `a` when the path is nonempty. -/
inductive Reach (es : List (String × String)) : String → String → Prop
  | refl (a : String) : Reach es a a
  | head {a b c : String} : (a, b) ∈ es → Reach es b c → Reach es a c

/-- Nonempty forward path from `a` to `b`. -/
def ReachPlus (es : List (String × String)) (a b : String) : Prop :=
  ∃ c, (a, c) ∈ es ∧ Reach es c b

/-- The edge set contains a (directed) cycle. -/
def HasCycle (es : List (String × String)) : Prop :=
  ∃ a, ReachPlus es a a

/-- The registries touched by the four insertion operations: the graph's flat
task registry `_tasks` (ids in insertion order), its flat group registry
`_groups` (id paired with a tag identifying the stored group object, so that
silent replacement is observable), and for every attached group its `_tasks` /
`_groups` child-name dictionaries. -/
structure CState where
  taskIds : List String
  groupReg : List (String × Nat)
  childT : List (String × List String)
  childG : List (String × List String)
  deriving DecidableEq, Repr

/-- Python dict assignment `d[k] = v` on an association list: replace the
value in place when the key exists, append otherwise. -/
def dictSet {β : Type} (l : List (String × β)) (k : String) (v : β) : List (String × β) :=
  if l.any (fun p => p.1 == k) then l.map (fun p => if p.1 == k then (k, v) else p)
  else l ++ [(k, v)]

/-- Child task names of the attached group `gid` (its `_tasks` keys). -/
def childTasksOf (st : CState) (gid : String) : List String :=
  (st.childT.lookup gid).getD []

/-- Child group names of the attached group `gid` (its `_groups` keys). -/
def childGroupsOf (st : CState) (gid : String) : List String :=
  (st.childG.lookup gid).getD []

/-- Result of an insertion: either it returns (`ok`) or it raises (`err`); in
both cases the registry state afterwards is carried, since an exception thrown
after a mutation leaves that mutation behind. -/
inductive AddOutcome where
  | ok (st : CState)
  | err (st : CState)
  deriving DecidableEq, Repr

/-- `TaskGroup.add_task` on the attached group `gid`, adding a fresh
(unattached) task named `name` (core.py lines 198-215).  The sibling-name
check `task.name in self` (groups and tasks share one namespace) runs before
any mutation; the id check inside the nested `TaskGraph.add_task` call runs
after the group's child registry was already mutated. -/
def groupAddTask (st : CState) (gid name : String) : AddOutcome :=
  if st.groupReg.lookup gid = none then AddOutcome.err st
  else if name ∈ childGroupsOf st gid ∨ name ∈ childTasksOf st gid then AddOutcome.err st
  else
    let st1 : CState := { st with childT := dictSet st.childT gid (childTasksOf st gid ++ [name]) }
    let tid := gid ++ ":" ++ name
    if tid ∈ st1.taskIds then AddOutcome.err st1
    else AddOutcome.ok { st1 with taskIds := st1.taskIds ++ [tid] }

/-- `TaskGroup.add_group` on the attached group `gid`, adding a fresh sub
group named `name` whose object identity is `tag` (core.py lines 179-196).
After the sibling-name check and the child-registry mutation it calls
`TaskGraph.add_group`, which writes `self._groups[group.id] = group` with no
collision check. -/
def groupAddGroup (st : CState) (gid name : String) (tag : Nat) : AddOutcome :=
  if st.groupReg.lookup gid = none then AddOutcome.err st
  else if name ∈ childGroupsOf st gid ∨ name ∈ childTasksOf st gid then AddOutcome.err st
  else
    let st1 : CState := { st with childG := dictSet st.childG gid (childGroupsOf st gid ++ [name]) }
    AddOutcome.ok { st1 with groupReg := dictSet st1.groupReg (gid ++ ":" ++ name) tag }

/-- `TaskGraph.add_task` on a fresh root-level task, whose id is its bare name
(core.py lines 277-284): the id collision check against the flat task registry
runs before any mutation. -/
def graphAddTask (st : CState) (name : String) : AddOutcome :=
  if name ∈ st.taskIds then AddOutcome.err st
  else AddOutcome.ok { st with taskIds := st.taskIds ++ [name] }

/-- `TaskGraph.add_group` on a fresh root-level group (core.py lines 262-266):
`self._groups[group.id] = group` runs with no collision check of any kind,
silently replacing an existing entry with the same id. -/
def graphAddGroup (st : CState) (name : String) (tag : Nat) : AddOutcome :=
  AddOutcome.ok { st with groupReg := dictSet st.groupReg name tag }

/-- A cycle is backward-reachable from `q`: some node on a directed cycle
forward-reaches `q`, so `q`'s dependency closure contains that cycle. -/
def CycleBehind (es : List (String × String)) (q : String) : Prop :=
  ∃ c, ReachPlus es c c ∧ Reach es c q

/-- The call `ordered_tasks(arg)` never finishes: after every number of
iterations of its backward closure loop it is still running. -/
def NeverTerminates (g : SGraph) (arg : SelectArg) : Prop :=
  ∀ fuel, g.ordered_tasks (some arg) fuel = OTResult.outOfFuel

/-- A three-task chain `1 -> 2 -> 3`, tasks registered in order. -/
def chainGraph : SGraph :=
  { tasks := ["1", "2", "3"], groups := [], edges := [("1", "2"), ("2", "3")] }

/-- Two tasks forming the directed cycle `a -> b -> a`. -/
def loopGraph : SGraph :=
  { tasks := ["a", "b"], groups := [], edges := [("a", "b"), ("b", "a")] }

/-- A leaf group `g` (no sub-groups) whose two child tasks form the directed
cycle `g:a -> g:b -> g:a`. -/
def loopGroupGraph : SGraph :=
  { tasks := ["g:a", "g:b"]
  , groups := [("g", { childTasks := ["g:a", "g:b"], childGroups := [] })]
  , edges := [("g:a", "g:b"), ("g:b", "g:a")] }

/-- Three tasks where `b` depends on `c` (edge `c -> b`) and `a` is isolated. -/
def depGraph : SGraph :=
  { tasks := ["a", "b", "c"], groups := [], edges := [("c", "b")] }

/-- The nested-group graph for claim C3: root group `g1` with sub-group
`g1:g2`, which owns the task `g1:g2:t2`. -/
def nestedGraph : SGraph :=
  { tasks := ["g1:g2:t2"]
  , groups := [("g1", { childTasks := [], childGroups := ["g1:g2"] }),
               ("g1:g2", { childTasks := ["g1:g2:t2"], childGroups := [] })]
  , edges := [] }

/-- The three-task, edge-free graph of claim C8, tasks registered in order. -/
def graph123 : SGraph := { tasks := ["1", "2", "3"], groups := [], edges := [] }

/-- The collision state for the claim C6 witness: an attached group `g1` with
child task `t`, plus a root task `r`. -/
def collisionState : CState :=
  { taskIds := ["r", "g1:t"], groupReg := [("g1", 0)]
  , childT := [("g1", ["t"])], childG := [] }

/-- Reachability is transitive. -/
theorem reach_trans {es : List (String × String)} {a b c : String}
    (h1 : Reach es a b) : Reach es b c → Reach es a c := by
  induction h1 with
  | refl a => exact id
  | head he _ ih => exact fun h2 => Reach.head he (ih h2)

/-- A nonempty reachability path can be split at its last edge. -/
theorem reach_last {es : List (String × String)} {a b : String} (h : Reach es a b) :
    a = b ∨ ∃ p, (p, b) ∈ es ∧ Reach es a p := by
  induction h with
  | refl a => exact Or.inl rfl
  | head he _ ih =>
    rcases ih with rfl | ⟨p, hpc, hbp⟩
    · exact Or.inr ⟨_, he, Reach.refl _⟩
    · exact Or.inr ⟨p, hpc, Reach.head he hbp⟩

/-- Ranks are monotone along reachability. -/
theorem reach_rank_le {es : List (String × String)} (rank : String → Nat)
    (hr : ∀ e ∈ es, rank e.1 < rank e.2) {a b : String} (h : Reach es a b) :
    rank a ≤ rank b := by
  induction h with
  | refl a => exact le_rfl
  | head he _ ih => exact le_of_lt (lt_of_lt_of_le (hr _ he) ih)

/-- An edge-increasing rank function witnesses acyclicity. -/
theorem acyclic_of_rank {es : List (String × String)} (rank : String → Nat)
    (hr : ∀ e ∈ es, rank e.1 < rank e.2) : ¬ HasCycle es := by
  rintro ⟨a, c, hac, hca⟩
  exact absurd (lt_of_lt_of_le (hr _ hac) (reach_rank_le rank hr hca)) (lt_irrefl _)

/-- A node passing the `noIncoming` test has no in-edge from the remaining
node set. -/
theorem noIncoming_no_edge {es : List (String × String)} {ns : List String} {n : String}
    (h : noIncoming es ns n = true) {a : String} (he : (a, n) ∈ es) (ha : a ∈ ns) : False := by
  unfold noIncoming at h
  rw [Bool.not_eq_true', List.any_eq_false] at h
  have h2 := h _ he
  apply h2
  rw [decide_eq_true_eq]
  exact ⟨rfl, ha⟩

/-- The output of the modelled Kahn loop is a permutation of the remaining
node set. -/
theorem kahnAux_perm (es : List (String × String)) :
    ∀ (fuel : Nat) (ns l : List String), kahnAux es fuel ns = some l → l.Perm ns := by
  intro fuel
  induction fuel with
  | zero =>
    intro ns l h
    unfold kahnAux at h
    by_cases he : ns.isEmpty
    · rw [if_pos he] at h
      cases h
      rw [List.isEmpty_iff.mp he]
    · rw [if_neg he] at h
      cases h
  | succ fuel ih =>
    intro ns l h
    unfold kahnAux at h
    by_cases he : ns.isEmpty
    · rw [if_pos he] at h
      cases h
      rw [List.isEmpty_iff.mp he]
    · rw [if_neg he] at h
      cases hf : ns.find? (noIncoming es ns) with
      | none => rw [hf, Option.none_bind] at h; cases h
      | some n =>
        rw [hf, Option.some_bind] at h
        cases hk : kahnAux es fuel (ns.erase n) with
        | none => rw [hk] at h; cases h
        | some l2 =>
          rw [hk, Option.map_some'] at h
          cases h
          have hn : n ∈ ns := List.mem_of_find?_eq_some hf
          exact ((ih _ _ hk).cons n).trans (List.perm_cons_erase hn).symm

/-- Every edge between remaining nodes appears in order in the output of the
modelled Kahn loop. -/
theorem kahnAux_edge_sublist (es : List (String × String)) :
    ∀ (fuel : Nat) (ns l : List String) (a b : String), kahnAux es fuel ns = some l →
      (a, b) ∈ es → a ∈ ns → b ∈ ns → [a, b].Sublist l := by
  intro fuel
  induction fuel with
  | zero =>
    intro ns l a b h he ha hb
    unfold kahnAux at h
    by_cases hemp : ns.isEmpty
    · rw [List.isEmpty_iff.mp hemp] at ha
      cases ha
    · rw [if_neg hemp] at h
      cases h
  | succ fuel ih =>
    intro ns l a b h he ha hb
    unfold kahnAux at h
    by_cases hemp : ns.isEmpty
    · rw [List.isEmpty_iff.mp hemp] at ha
      cases ha
    · rw [if_neg hemp] at h
      cases hf : ns.find? (noIncoming es ns) with
      | none => rw [hf, Option.none_bind] at h; cases h
      | some n =>
        rw [hf, Option.some_bind] at h
        cases hk : kahnAux es fuel (ns.erase n) with
        | none => rw [hk] at h; cases h
        | some l2 =>
          rw [hk, Option.map_some'] at h
          cases h
          have hni : noIncoming es ns n = true := List.find?_some hf
          have hbn : b ≠ n := fun hbn => noIncoming_no_edge hni (hbn ▸ he) ha
          have hb2 : b ∈ ns.erase n := (List.mem_erase_of_ne hbn).mpr hb
          by_cases han : a = n
          · subst han
            have hbl : b ∈ l2 := (kahnAux_perm es fuel _ _ hk).mem_iff.mpr hb2
            exact List.Sublist.cons₂ a (List.singleton_sublist.mpr hbl)
          · have ha2 : a ∈ ns.erase n := (List.mem_erase_of_ne han).mpr ha
            exact List.Sublist.cons n (ih _ _ a b hk he ha2 hb2)

/-- In a duplicate-free list, an ordered pair sublist means the first element
has the strictly smaller index. -/
theorem sublist_pair_indexOf_lt {l : List String} (hnd : l.Nodup) :
    ∀ {a b : String}, [a, b].Sublist l → l.indexOf a < l.indexOf b := by
  induction l with
  | nil =>
    intro a b h
    cases List.sublist_nil.mp h
  | cons x xs ih =>
    intro a b h
    cases h with
    | cons _ h2 =>
      have ha : a ∈ xs := h2.subset (by simp)
      have hb : b ∈ xs := h2.subset (by simp)
      have hxa : x ≠ a := fun hx => (List.nodup_cons.mp hnd).1 (hx ▸ ha)
      have hxb : x ≠ b := fun hx => (List.nodup_cons.mp hnd).1 (hx ▸ hb)
      rw [List.indexOf_cons_ne _ hxa, List.indexOf_cons_ne _ hxb]
      exact Nat.succ_lt_succ (ih (List.nodup_cons.mp hnd).2 h2)
    | cons₂ _ h2 =>
      have hb : b ∈ xs := List.singleton_sublist.mp h2
      have hxb : x ≠ b := fun hx => (List.nodup_cons.mp hnd).1 (hx ▸ hb)
      rw [List.indexOf_cons_self, List.indexOf_cons_ne _ hxb]
      exact Nat.succ_pos _

/-- If every remaining node has an in-edge from a remaining node, the edge set
has a cycle (by iterating a chosen predecessor and pigeonholing). -/
theorem exists_cycle_of_all_blocked {es : List (String × String)} {ns : List String}
    (hne : ns ≠ [])
    (hall : ∀ n ∈ ns, ∃ e ∈ es, e.2 = n ∧ e.1 ∈ ns) : HasCycle es := by
  classical
  have hchoice : ∀ n, ∃ m, n ∈ ns → ((m, n) ∈ es ∧ m ∈ ns) := by
    intro n
    by_cases hn : n ∈ ns
    · obtain ⟨e, hees, he2, he1⟩ := hall n hn
      refine ⟨e.1, fun _ => ⟨?_, he1⟩⟩
      have hx : (e.1, e.2) ∈ es := by rw [Prod.mk.eta]; exact hees
      rwa [he2] at hx
    · exact ⟨n, fun h => absurd h hn⟩
  choose f hf using hchoice
  obtain ⟨n0, hn0⟩ : ∃ n, n ∈ ns := by
    cases ns with
    | nil => exact absurd rfl hne
    | cons h t => exact ⟨h, List.mem_cons_self h t⟩
  have hiter : ∀ k, f^[k] n0 ∈ ns := by
    intro k
    induction k with
    | zero => exact hn0
    | succ k ih =>
      rw [Function.iterate_succ_apply']
      exact (hf _ ih).2
  have hedge : ∀ k, (f^[k + 1] n0, f^[k] n0) ∈ es := by
    intro k
    rw [Function.iterate_succ_apply']
    exact (hf _ (hiter k)).1
  have hpath : ∀ d k, Reach es (f^[k + d] n0) (f^[k] n0) := by
    intro d
    induction d with
    | zero => exact fun k => Reach.refl _
    | succ d ih => exact fun k => Reach.head (hedge (k + d)) (ih k)
  have key : ∀ p q : Nat, p < q → f^[p] n0 = f^[q] n0 → HasCycle es := by
    intro p q hpq heq
    obtain ⟨d, rfl⟩ : ∃ d, q = p + d + 1 := ⟨q - p - 1, by omega⟩
    refine ⟨f^[p + d + 1] n0, f^[p + d] n0, hedge (p + d), ?_⟩
    rw [← heq]
    exact hpath d p
  have hcard : (ns.toFinset).card < (Finset.range (ns.length + 1)).card := by
    rw [Finset.card_range]
    exact Nat.lt_succ_of_le (List.toFinset_card_le ns)
  obtain ⟨i, _, j, _, hij, heq⟩ := Finset.exists_ne_map_eq_of_card_lt_of_maps_to hcard
    (fun k _ => List.mem_toFinset.mpr (hiter k))
  rcases hij.lt_or_lt with h | h
  · exact key i j h heq
  · exact key j i h heq.symm

/-- On a cycle-free edge set, the modelled Kahn loop succeeds whenever the
fuel covers the node count. -/
theorem kahnAux_complete (es : List (String × String)) (hnc : ¬ HasCycle es) :
    ∀ (fuel : Nat) (ns : List String), ns.length ≤ fuel →
      ∃ l, kahnAux es fuel ns = some l := by
  intro fuel
  induction fuel with
  | zero =>
    intro ns hlen
    have h0 : ns = [] := List.length_eq_zero.mp (Nat.le_zero.mp hlen)
    subst h0
    exact ⟨[], rfl⟩
  | succ fuel ih =>
    intro ns hlen
    by_cases hemp : ns.isEmpty
    · refine ⟨[], ?_⟩
      unfold kahnAux
      rw [if_pos hemp]
    · cases hf : ns.find? (noIncoming es ns) with
      | none =>
        exfalso
        apply hnc
        have hne2 : ns ≠ [] := by
          intro h0
          rw [h0] at hemp
          exact hemp rfl
        refine exists_cycle_of_all_blocked hne2 ?_
        intro n hn
        have hnot := List.find?_eq_none.mp hf n hn
        have hb : es.any (fun e => decide (e.2 = n ∧ e.1 ∈ ns)) = true := by
          rcases Bool.eq_false_or_eq_true (es.any (fun e => decide (e.2 = n ∧ e.1 ∈ ns)))
            with hx | hx
          · exact hx
          · refine absurd ?_ hnot
            unfold noIncoming
            rw [hx]
            rfl
        obtain ⟨e, hees, hp⟩ := List.any_eq_true.mp hb
        rw [decide_eq_true_eq] at hp
        exact ⟨e, hees, hp.1, hp.2⟩
      | some n =>
        have hn : n ∈ ns := List.mem_of_find?_eq_some hf
        obtain ⟨l2, hl2⟩ := ih (ns.erase n) (by rw [List.length_erase_of_mem hn]; omega)
        refine ⟨n :: l2, ?_⟩
        unfold kahnAux
        rw [if_neg hemp, hf, Option.some_bind, hl2, Option.map_some']

/-- Indices in the Kahn output are monotone along reachability. -/
theorem kahn_reach_indexOf_le {es : List (String × String)} {ns l : List String}
    (hnd : ns.Nodup) (hep : ∀ e ∈ es, e.1 ∈ ns ∧ e.2 ∈ ns)
    (hl : kahnAux es ns.length ns = some l) {a b : String} (h : Reach es a b) :
    l.indexOf a ≤ l.indexOf b := by
  have hlnd : l.Nodup := ((kahnAux_perm es ns.length ns l hl).symm).nodup hnd
  induction h with
  | refl a => exact le_rfl
  | head he _ ih =>
    have hs := kahnAux_edge_sublist es ns.length ns l _ _ hl he (hep _ he).1 (hep _ he).2
    exact le_of_lt (lt_of_lt_of_le (sublist_pair_indexOf_lt hlnd hs) ih)

/-- On a cyclic edge set between registered nodes the modelled topological
sort fails, returning no ordering at all. -/
theorem topoSort_none_of_cycle {es : List (String × String)} {ns : List String}
    (hnd : ns.Nodup) (hep : ∀ e ∈ es, e.1 ∈ ns ∧ e.2 ∈ ns)
    (hc : HasCycle es) : topoSort ns es = none := by
  cases hk : topoSort ns es with
  | none => rfl
  | some l =>
    exfalso
    obtain ⟨a, c, hac, hca⟩ := hc
    have hk2 : kahnAux es ns.length ns = some l := hk
    have hlnd : l.Nodup := ((kahnAux_perm es ns.length ns l hk2).symm).nodup hnd
    have h1 : l.indexOf a < l.indexOf c :=
      sublist_pair_indexOf_lt hlnd
        (kahnAux_edge_sublist es ns.length ns l a c hk2 hac (hep _ hac).1 (hep _ hac).2)
    have h2 : l.indexOf c ≤ l.indexOf a := kahn_reach_indexOf_le hnd hep hk2 hca
    exact absurd (lt_of_lt_of_le h1 h2) (lt_irrefl _)

/-- Membership after a `set.add` style insertion. -/
theorem insertElem_mem {acc : List SelElem} {e x : SelElem} :
    x ∈ insertElem acc e ↔ x ∈ acc ∨ x = e := by
  unfold insertElem
  by_cases h : e ∈ acc
  · rw [if_pos h]
    constructor
    · exact Or.inl
    · rintro (hx | rfl)
      exacts [hx, h]
  · rw [if_neg h]
    simp [List.mem_append]

/-- The `select` loop over names that each resolve to a task accumulates
exactly those task elements. -/
theorem selectAux_tasks {g : SGraph} :
    ∀ (names : List String) (acc : List SelElem),
      (∀ s ∈ names, g.getItem s = some (Item.task s)) →
      ∃ out, selectAux g names acc = some out
        ∧ ∀ x, x ∈ out ↔ x ∈ acc ∨ ∃ s ∈ names, x = SelElem.task s := by
  intro names
  induction names with
  | nil =>
    intro acc _
    exact ⟨acc, rfl, by simp⟩
  | cons s rest ih =>
    intro acc h
    have hs := h s (List.mem_cons_self s rest)
    obtain ⟨out, hout, hmem⟩ :=
      ih (insertElem acc (SelElem.task s)) (fun t ht => h t (List.mem_cons_of_mem _ ht))
    refine ⟨out, ?_, ?_⟩
    · unfold selectAux
      rw [hs]
      exact hout
    · intro x
      rw [hmem x, insertElem_mem]
      constructor
      · rintro ((hx | rfl) | ⟨t, ht, rfl⟩)
        · exact Or.inl hx
        · exact Or.inr ⟨s, List.mem_cons_self _ _, rfl⟩
        · exact Or.inr ⟨t, List.mem_cons_of_mem _ ht, rfl⟩
      · rintro (hx | ⟨t, ht, rfl⟩)
        · exact Or.inl (Or.inl hx)
        · rcases List.mem_cons.mp ht with rfl | ht2
          · exact Or.inl (Or.inr rfl)
          · exact Or.inr ⟨t, ht2, rfl⟩

/-- Reading `.id` off a selection set that only holds task elements succeeds
and returns their ids. -/
theorem elemIds_tasks :
    ∀ out : List SelElem, (∀ x ∈ out, ∃ t, x = SelElem.task t) →
      ∃ ids, elemIds out = some ids ∧ ∀ y, y ∈ ids ↔ SelElem.task y ∈ out := by
  intro out
  induction out with
  | nil => exact fun _ => ⟨[], rfl, by simp⟩
  | cons x rest ih =>
    intro h
    obtain ⟨t, rfl⟩ := h x (List.mem_cons_self _ _)
    obtain ⟨ids, hids, hmem⟩ := ih (fun y hy => h y (List.mem_cons_of_mem _ hy))
    refine ⟨t :: ids, ?_, ?_⟩
    · unfold elemIds
      rw [hids, Option.map_some']
    · intro y
      simp only [List.mem_cons, hmem]
      constructor
      · rintro (rfl | hy)
        · exact Or.inl rfl
        · exact Or.inr hy
      · rintro (h1 | hy)
        · exact Or.inl (SelElem.task.inj h1)
        · exact Or.inr hy

/-- Resolving a list of names that are all plain task ids: `select` returns
exactly the corresponding task elements and the `.id` extraction of
`ordered_tasks` yields a queue with the same members as the name list. -/
theorem select_task_ids {g : SGraph} {names : List String}
    (h : ∀ s ∈ names, g.getItem s = some (Item.task s)) :
    ∃ elems ids, g.selectA (SelectArg.many names) = some elems
      ∧ elemIds elems = some ids ∧ ∀ y, y ∈ ids ↔ y ∈ names := by
  obtain ⟨out, hout, hmem⟩ := selectAux_tasks names [] h
  have hall : ∀ x ∈ out, ∃ t, x = SelElem.task t := by
    intro x hx
    rcases (hmem x).mp hx with hx0 | ⟨s, _, rfl⟩
    · cases hx0
    · exact ⟨s, rfl⟩
  obtain ⟨ids, hids, hmem2⟩ := elemIds_tasks out hall
  refine ⟨out, ids, hout, hids, ?_⟩
  intro y
  rw [hmem2 y, hmem (SelElem.task y)]
  simp

/-- A popped queue element with a cycle behind it yields a pushed predecessor
with a cycle behind it. -/
theorem cycleBehind_step {es : List (String × String)} {q : String}
    (h : CycleBehind es q) : ∃ p, (p, q) ∈ es ∧ CycleBehind es p := by
  obtain ⟨c, hplus, hreach⟩ := h
  rcases reach_last hreach with rfl | ⟨p, hpq, hcp⟩
  · obtain ⟨m, hqm, hmq⟩ := hplus
    rcases reach_last hmq with rfl | ⟨p, hpq, hmp⟩
    · exact ⟨m, hqm, m, ⟨m, hqm, Reach.refl m⟩, Reach.refl m⟩
    · exact ⟨p, hpq, p, ⟨_, hpq, Reach.head hqm hmp⟩, Reach.refl p⟩
  · exact ⟨p, hpq, c, hplus, hcp⟩

/-- The backward closure loop never finishes when some queue element has a
cycle behind it: the queue can never become empty. -/
theorem walkAux_none_of_cycleBehind (es : List (String × String)) :
    ∀ (fuel : Nat) (queue acc : List String),
      (∃ q ∈ queue, CycleBehind es q) → walkAux es fuel queue acc = none := by
  intro fuel
  induction fuel with
  | zero =>
    rintro queue acc ⟨q, hq, -⟩
    cases queue with
    | nil => cases hq
    | cons x rest => rfl
  | succ fuel ih =>
    rintro queue acc ⟨q, hq, hcb⟩
    cases queue with
    | nil => cases hq
    | cons x rest =>
      show walkAux es fuel (rest ++ predsOf es x) _ = none
      apply ih
      rcases List.mem_cons.mp hq with rfl | hmem
      · obtain ⟨p, hpx, hcbp⟩ := cycleBehind_step hcb
        refine ⟨p, List.mem_append_right _ ?_, hcbp⟩
        unfold predsOf
        exact List.mem_map.mpr ⟨(p, q), List.mem_filter.mpr ⟨hpx, by simp⟩, rfl⟩
      · exact ⟨q, List.mem_append_left _ hmem, hcb⟩

/-- Claim C2: on a graph with duplicate-free task registry, edges between
registered tasks, and an acyclic edge set, `ordered_tasks()` without a
selection returns one fixed sequence that contains every registered task
exactly once (a duplicate-free permutation of the registry) and places `a`
strictly before `b` for every edge `(a, b)`. -/
theorem c2_full_order_topological (g : SGraph)
    (hnd : g.tasks.Nodup)
    (hep : ∀ e ∈ g.edges, e.1 ∈ g.tasks ∧ e.2 ∈ g.tasks)
    (hnc : ¬ HasCycle g.edges) :
    ∃ l, (∀ fuel, g.ordered_tasks none fuel = OTResult.ok l)
      ∧ l.Perm g.tasks ∧ l.Nodup
      ∧ ∀ a b, (a, b) ∈ g.edges → [a, b].Sublist l := by
  obtain ⟨l, hl⟩ := kahnAux_complete g.edges hnc g.tasks.length g.tasks le_rfl
  have ht : topoSort g.tasks g.edges = some l := hl
  refine ⟨l, ?_, kahnAux_perm _ _ _ _ hl, ((kahnAux_perm _ _ _ _ hl).symm).nodup hnd, ?_⟩
  · intro fuel
    show (match topoSort g.tasks g.edges with
      | some l => OTResult.ok l
      | none => OTResult.cycleError) = OTResult.ok l
    rw [ht]
  · intro a b he
    exact kahnAux_edge_sublist g.edges _ _ _ a b hl he (hep _ he).1 (hep _ he).2

/-- Claim C2 witness: the chain `1 -> 2 -> 3` yields `[1, 2, 3]`, a
permutation of the registry that respects the edge `(1, 2)`. -/
theorem c2_full_order_topological_witness :
    chainGraph.ordered_tasks none 0 = OTResult.ok ["1", "2", "3"]
    ∧ (["1", "2", "3"] : List String).Perm chainGraph.tasks
    ∧ [("1" : String), "2"].Sublist ["1", "2", "3"] := by
  obtain ⟨l, hl, hperm, hnd, hord⟩ := c2_full_order_topological chainGraph (by decide)
    (by decide)
    (acyclic_of_rank (fun s => if s = "1" then 0 else if s = "2" then 1 else 2) (by decide))
  have h0 := hl 0
  have he : chainGraph.ordered_tasks none 0 = OTResult.ok ["1", "2", "3"] := by decide
  rw [h0] at he
  have hli : l = ["1", "2", "3"] := by injection he
  subst hli
  exact ⟨h0, hperm, hord "1" "2" (by decide)⟩

/-- `ordered_tasks` with a resolved selection runs the closure-and-sort tail
on the extracted id queue. -/
theorem ordered_tasks_resolve {g : SGraph} {arg : SelectArg} {elems : List SelElem}
    {ids : List String} (he : g.selectA arg = some elems) (hi : elemIds elems = some ids)
    (fuel : Nat) : g.ordered_tasks (some arg) fuel = sortClosure g ids fuel := by
  have h1 : g.ordered_tasks (some arg) fuel =
      (match g.selectA arg with
       | none => OTResult.keyError
       | some elems =>
         match elemIds elems with
         | none => OTResult.attrError
         | some ids => sortClosure g ids fuel) := rfl
  rw [h1, he]
  show (match elemIds elems with
    | none => OTResult.attrError
    | some ids => sortClosure g ids fuel) = sortClosure g ids fuel
  rw [hi]

/-- A selection set holding a plain string (a sub-group id) makes the `.id`
extraction raise `AttributeError`, wherever the string sits. -/
theorem elemIds_none_of_str :
    ∀ (elems : List SelElem) (s : String), SelElem.str s ∈ elems → elemIds elems = none := by
  intro elems
  induction elems with
  | nil =>
    intro s hs
    cases hs
  | cons x rest ih =>
    intro s hs
    cases x with
    | task id =>
      have hs2 : SelElem.str s ∈ rest := by
        rcases List.mem_cons.mp hs with h1 | h1
        · exact SelElem.noConfusion h1
        · exact h1
      unfold elemIds
      rw [ih s hs2]
      rfl
    | str s2 => rfl

/-- `ordered_tasks` raises `AttributeError` when the resolved selection set
defeats the `.id` extraction. -/
theorem ordered_tasks_attrError {g : SGraph} {arg : SelectArg} {elems : List SelElem}
    (he : g.selectA arg = some elems) (hi : elemIds elems = none) (fuel : Nat) :
    g.ordered_tasks (some arg) fuel = OTResult.attrError := by
  have h1 : g.ordered_tasks (some arg) fuel =
      (match g.selectA arg with
       | none => OTResult.keyError
       | some elems =>
         match elemIds elems with
         | none => OTResult.attrError
         | some ids => sortClosure g ids fuel) := rfl
  rw [h1, he]
  show (match elemIds elems with
    | none => OTResult.attrError
    | some ids => sortClosure g ids fuel) = OTResult.attrError
  rw [hi]

/-- When the closure loop is still running after `fuel` iterations, the
selection-sorting tail reports exactly that. -/
theorem sortClosure_outOfFuel {g : SGraph} {ids : List String} {fuel : Nat}
    (hw : walkAux g.edges fuel ids [] = none) :
    sortClosure g ids fuel = OTResult.outOfFuel := by
  unfold sortClosure
  rw [hw]

/-- When the closure loop finishes with a visited set, the selection-sorting
tail topologically sorts the induced subgraph. -/
theorem sortClosure_of_walk {g : SGraph} {ids visited : List String} {fuel : Nat}
    (hw : walkAux g.edges fuel ids [] = some visited) :
    sortClosure g ids fuel =
      match
        topoSort (g.tasks.filter (fun t => decide (t ∈ visited)))
          (g.edges.filter (fun e => decide (e.1 ∈ visited ∧ e.2 ∈ visited))) with
      | some l => OTResult.ok l
      | none => OTResult.cycleError := by
  unfold sortClosure
  rw [hw]

/-- Claim C5 (amended): on a graph with duplicate-free registry and edges
between registered tasks, a cyclic edge set makes `ordered_tasks()` without a
selection fail with the cycle-detection error, returning no ordering at all.
With a selection, no cycle-detection error is raised: whenever `select`
resolves the selection to task elements only — which covers plain task ids
and groups without sub-groups — and a cycle lies behind one of the selected
tasks, the closure loop never terminates, after every number of iterations
the call is still running; and whenever the resolved selection set holds a
sub-group id string, the call terminates with `AttributeError` at every
iteration bound, before any cycle could be detected. -/
theorem c5_amended_cycle_behaviour (g : SGraph)
    (hnd : g.tasks.Nodup)
    (hep : ∀ e ∈ g.edges, e.1 ∈ g.tasks ∧ e.2 ∈ g.tasks) :
    (HasCycle g.edges → ∀ fuel, g.ordered_tasks none fuel = OTResult.cycleError)
    ∧ (∀ arg elems, g.selectA arg = some elems →
        (∀ x ∈ elems, ∃ t, x = SelElem.task t) →
        (∃ s, SelElem.task s ∈ elems ∧ CycleBehind g.edges s) →
        NeverTerminates g arg)
    ∧ ∀ arg elems s, g.selectA arg = some elems → SelElem.str s ∈ elems →
        ∀ fuel, g.ordered_tasks (some arg) fuel = OTResult.attrError := by
  refine ⟨?_, ?_, ?_⟩
  · intro hc fuel
    have ht := topoSort_none_of_cycle hnd hep hc
    show (match topoSort g.tasks g.edges with
      | some l => OTResult.ok l
      | none => OTResult.cycleError) = OTResult.cycleError
    rw [ht]
  · intro arg elems he htask hcb fuel
    obtain ⟨ids, hi, hm⟩ := elemIds_tasks elems htask
    obtain ⟨s, hs, hcbs⟩ := hcb
    rw [ordered_tasks_resolve he hi fuel]
    exact sortClosure_outOfFuel
      (walkAux_none_of_cycleBehind g.edges fuel ids [] ⟨s, (hm s).mpr hs, hcbs⟩)
  · intro arg elems s he hstr fuel
    exact ordered_tasks_attrError he (elemIds_none_of_str elems s hstr) fuel

/-- Claim C5 witness: the unselected call on the two-cycle `a -> b -> a`
fails with the cycle error; selecting the leaf group `g` whose child tasks
form the cycle `g:a -> g:b -> g:a` is still running after nine iterations;
and selecting the group `g1`, whose selection set holds the sub-group id
string `g1:g2`, raises `AttributeError`. -/
theorem c5_amended_cycle_behaviour_witness :
    loopGraph.ordered_tasks none 3 = OTResult.cycleError
    ∧ loopGroupGraph.ordered_tasks (some (SelectArg.many ["g"])) 9 = OTResult.outOfFuel
    ∧ nestedGraph.ordered_tasks (some (SelectArg.many ["g1"])) 5 = OTResult.attrError := by
  obtain ⟨h1, -, -⟩ := c5_amended_cycle_behaviour loopGraph (by decide) (by decide)
  obtain ⟨-, h2, -⟩ := c5_amended_cycle_behaviour loopGroupGraph (by decide) (by decide)
  obtain ⟨-, -, h3⟩ := c5_amended_cycle_behaviour nestedGraph (by decide) (by decide)
  refine ⟨h1 ⟨"a", "b", by decide, Reach.head (by decide) (Reach.refl "a")⟩ 3, ?_, ?_⟩
  · refine h2 (SelectArg.many ["g"]) [SelElem.task "g:a", SelElem.task "g:b"] rfl ?_
      ⟨"g:a", by decide, "g:a",
        ⟨"g:b", by decide, Reach.head (by decide) (Reach.refl "g:a")⟩,
        Reach.refl "g:a"⟩ 9
    intro x hx
    rcases List.mem_cons.mp hx with rfl | hx2
    · exact ⟨"g:a", rfl⟩
    · rcases List.mem_cons.mp hx2 with rfl | hx3
      · exact ⟨"g:b", rfl⟩
      · cases hx3
  · exact h3 (SelectArg.many ["g1"]) [SelElem.str "g1:g2"] "g1:g2" rfl (by decide) 5

/-- Claim C5 fails on the code in the selection case: selecting task `a` on
the two-cycle `a -> b -> a` makes the backward closure loop of
`ordered_tasks` spin forever — after every number of iterations it is still
running — so no cycle-detection error is ever raised. -/
theorem c5_selection_cycle_spins_forever :
    NeverTerminates loopGraph (SelectArg.many ["a"]) := by
  intro fuel
  have hcb : CycleBehind loopGraph.edges "a" :=
    ⟨"a", ⟨"b", by decide, Reach.head (by decide) (Reach.refl "a")⟩, Reach.refl "a"⟩
  rw [ordered_tasks_resolve (rfl : loopGraph.selectA (SelectArg.many ["a"])
      = some [SelElem.task "a"]) (rfl : elemIds [SelElem.task "a"] = some ["a"]) fuel]
  exact sortClosure_outOfFuel
    (walkAux_none_of_cycleBehind loopGraph.edges fuel ["a"] [] ⟨"a", by decide, hcb⟩)

/-- Membership in the in-edge source list. -/
theorem mem_predsOf {es : List (String × String)} {x p : String} :
    p ∈ predsOf es x ↔ (p, x) ∈ es := by
  unfold predsOf
  constructor
  · intro h
    obtain ⟨e, he, rfl⟩ := List.mem_map.mp h
    have h2 := List.mem_filter.mp he
    have h3 : e.2 = x := by simpa using h2.2
    rw [← h3, Prod.mk.eta]
    exact h2.1
  · intro h
    exact List.mem_map.mpr ⟨(p, x), List.mem_filter.mpr ⟨h, by simp⟩, rfl⟩

/-- A name resolving to a task is in the task registry. -/
theorem getItem_task_mem {g : SGraph} {s : String}
    (h : g.getItem s = some (Item.task s)) : s ∈ g.tasks := by
  unfold SGraph.getItem at h
  cases hl : g.groups.lookup s with
  | some gr =>
    rw [hl] at h
    have h2 : some (Item.group s gr) = some (Item.task s) := h
    exact Item.noConfusion (Option.some.inj h2)
  | none =>
    rw [hl] at h
    have h2 : (if s ∈ g.tasks then some (Item.task s) else none) = some (Item.task s) := h
    by_cases hm : s ∈ g.tasks
    · exact hm
    · rw [if_neg hm] at h2
      exact Option.noConfusion h2

/-- Reachability is monotone in the edge list. -/
theorem reach_mono {es es2 : List (String × String)} (hsub : ∀ e ∈ es, e ∈ es2)
    {a b : String} (h : Reach es a b) : Reach es2 a b := by
  induction h with
  | refl a => exact Reach.refl a
  | head he _ ih => exact Reach.head (hsub _ he) ih

/-- Cycles are monotone in the edge list. -/
theorem hasCycle_mono {es es2 : List (String × String)} (hsub : ∀ e ∈ es, e ∈ es2) :
    HasCycle es → HasCycle es2 := by
  rintro ⟨a, c, hac, hca⟩
  exact ⟨a, c, hsub _ hac, reach_mono hsub hca⟩

/-- A predecessor-closed set absorbs everything that reaches one of its
members. -/
theorem mem_of_reach_closed {es : List (String × String)} {v : List String}
    (hclosed : ∀ y ∈ v, ∀ p, (p, y) ∈ es → p ∈ v)
    {x s : String} (h : Reach es x s) (hs : s ∈ v) : x ∈ v := by
  induction h with
  | refl a => exact hs
  | head he _ ih => exact hclosed _ (ih hs) _ he

/-- Everything the closure loop visits is backward-reachable from the initial
queue (or was already in the accumulator). -/
theorem walkAux_sound (es : List (String × String)) :
    ∀ (fuel : Nat) (queue acc v : List String), walkAux es fuel queue acc = some v →
      ∀ x ∈ v, x ∈ acc ∨ ∃ q ∈ queue, Reach es x q := by
  intro fuel
  induction fuel with
  | zero =>
    intro queue acc v h x hx
    cases queue with
    | nil =>
      obtain rfl : acc = v := Option.some.inj h
      exact Or.inl hx
    | cons y rest => exact Option.noConfusion h
  | succ fuel ih =>
    intro queue acc v h x hx
    cases queue with
    | nil =>
      obtain rfl : acc = v := Option.some.inj h
      exact Or.inl hx
    | cons y rest =>
      have h2 : walkAux es fuel (rest ++ predsOf es y)
          (if y ∈ acc then acc else acc ++ [y]) = some v := h
      rcases ih _ _ _ h2 x hx with hacc | ⟨q, hq, hr⟩
      · by_cases hy : y ∈ acc
        · rw [if_pos hy] at hacc
          exact Or.inl hacc
        · rw [if_neg hy] at hacc
          rcases List.mem_append.mp hacc with hx2 | hx2
          · exact Or.inl hx2
          · have hxy : x = y := List.mem_singleton.mp hx2
            rw [hxy]
            exact Or.inr ⟨y, List.mem_cons_self _ _, Reach.refl y⟩
      · rcases List.mem_append.mp hq with hq2 | hq2
        · exact Or.inr ⟨q, List.mem_cons_of_mem _ hq2, hr⟩
        · have hqy : (q, y) ∈ es := mem_predsOf.mp hq2
          exact Or.inr ⟨y, List.mem_cons_self _ _,
            reach_trans hr (Reach.head hqy (Reach.refl y))⟩

/-- When the closure loop finishes, the visited set contains the queue and
the accumulator and is closed under predecessors, provided every pending
predecessor of an accumulator member sits in the queue. -/
theorem walkAux_complete (es : List (String × String)) :
    ∀ (fuel : Nat) (queue acc v : List String), walkAux es fuel queue acc = some v →
      (∀ y ∈ acc, ∀ p, (p, y) ∈ es → p ∈ acc ∨ p ∈ queue) →
      (∀ q ∈ queue, q ∈ v) ∧ (∀ y ∈ acc, y ∈ v)
        ∧ ∀ y ∈ v, ∀ p, (p, y) ∈ es → p ∈ v := by
  intro fuel
  induction fuel with
  | zero =>
    intro queue acc v h hI
    cases queue with
    | nil =>
      obtain rfl : acc = v := Option.some.inj h
      exact ⟨fun q hq => absurd hq (List.not_mem_nil q), fun y hy => hy, fun y hy p hp =>
        (hI y hy p hp).resolve_right (fun hc => absurd hc (List.not_mem_nil p))⟩
    | cons x rest => exact Option.noConfusion h
  | succ fuel ih =>
    intro queue acc v h hI
    cases queue with
    | nil =>
      obtain rfl : acc = v := Option.some.inj h
      exact ⟨fun q hq => absurd hq (List.not_mem_nil q), fun y hy => hy, fun y hy p hp =>
        (hI y hy p hp).resolve_right (fun hc => absurd hc (List.not_mem_nil p))⟩
    | cons x rest =>
      have h2 : walkAux es fuel (rest ++ predsOf es x)
          (if x ∈ acc then acc else acc ++ [x]) = some v := h
      have hI2 : ∀ y ∈ (if x ∈ acc then acc else acc ++ [x]), ∀ p, (p, y) ∈ es →
          p ∈ (if x ∈ acc then acc else acc ++ [x]) ∨ p ∈ rest ++ predsOf es x := by
        intro y hy p hp
        by_cases hyx : y = x
        · right
          refine List.mem_append_right _ ?_
          rw [mem_predsOf, ← hyx]
          exact hp
        · have hyacc : y ∈ acc := by
            by_cases hx : x ∈ acc
            · rwa [if_pos hx] at hy
            · rw [if_neg hx] at hy
              rcases List.mem_append.mp hy with h3 | h3
              · exact h3
              · exact absurd (List.mem_singleton.mp h3) hyx
          rcases hI y hyacc p hp with h3 | h3
          · left
            by_cases hx : x ∈ acc
            · rwa [if_pos hx]
            · rw [if_neg hx]
              exact List.mem_append_left _ h3
          · rcases List.mem_cons.mp h3 with hpx | h4
            · left
              rw [hpx]
              by_cases hx : x ∈ acc
              · rwa [if_pos hx]
              · rw [if_neg hx]
                exact List.mem_append_right _ (List.mem_singleton.mpr rfl)
            · right
              exact List.mem_append_left _ h4
      obtain ⟨hqv, hav, hclosed⟩ := ih _ _ _ h2 hI2
      refine ⟨?_, ?_, hclosed⟩
      · intro q hq
        rcases List.mem_cons.mp hq with hqx | h3
        · apply hav
          rw [hqx]
          by_cases hx : x ∈ acc
          · rwa [if_pos hx]
          · rw [if_neg hx]
            exact List.mem_append_right _ (List.mem_singleton.mpr rfl)
        · exact hqv q (List.mem_append_left _ h3)
      · intro y hy
        apply hav
        by_cases hx : x ∈ acc
        · rwa [if_pos hx]
        · rw [if_neg hx]
          exact List.mem_append_left _ hy

/-- A finished closure loop stays finished with the same result when given
more fuel. -/
theorem walkAux_mono (es : List (String × String)) :
    ∀ (fuel : Nat) (queue acc v : List String), walkAux es fuel queue acc = some v →
      ∀ fuel2, fuel ≤ fuel2 → walkAux es fuel2 queue acc = some v := by
  intro fuel
  induction fuel with
  | zero =>
    intro queue acc v h fuel2 _
    cases queue with
    | nil =>
      obtain rfl : acc = v := Option.some.inj h
      cases fuel2 with
      | zero => rfl
      | succ f => rfl
    | cons x rest => exact Option.noConfusion h
  | succ fuel ih =>
    intro queue acc v h fuel2 hle
    cases queue with
    | nil =>
      obtain rfl : acc = v := Option.some.inj h
      cases fuel2 with
      | zero => rfl
      | succ f => rfl
    | cons x rest =>
      cases fuel2 with
      | zero => omega
      | succ f2 =>
        have h2 : walkAux es fuel (rest ++ predsOf es x)
            (if x ∈ acc then acc else acc ++ [x]) = some v := h
        exact ih _ _ _ h2 f2 (Nat.succ_le_succ_iff.mp hle)

/-- With an edge-increasing rank (acyclicity evidence), the closure loop
terminates once the fuel covers the weighted queue measure. -/
theorem walkAux_terminates (es : List (String × String)) (rank : String → Nat)
    (hr : ∀ e ∈ es, rank e.1 < rank e.2) :
    ∀ (fuel : Nat) (queue acc : List String),
      (queue.map (fun x => (es.length + 1) ^ rank x)).sum ≤ fuel →
      ∃ v, walkAux es fuel queue acc = some v := by
  intro fuel
  induction fuel with
  | zero =>
    intro queue acc hm
    cases queue with
    | nil => exact ⟨acc, rfl⟩
    | cons x rest =>
      exfalso
      have h1 : 0 < (es.length + 1) ^ rank x := pow_pos (Nat.succ_pos _) _
      have h2 : ((x :: rest).map (fun x => (es.length + 1) ^ rank x)).sum
          = (es.length + 1) ^ rank x + (rest.map (fun x => (es.length + 1) ^ rank x)).sum := by
        rw [List.map_cons, List.sum_cons]
      omega
  | succ fuel ih =>
    intro queue acc hm
    cases queue with
    | nil => exact ⟨acc, rfl⟩
    | cons x rest =>
      have hbound : ((predsOf es x).map (fun y => (es.length + 1) ^ rank y)).sum
          < (es.length + 1) ^ rank x := by
        by_cases hpe : predsOf es x = []
        · rw [hpe]
          exact pow_pos (Nat.succ_pos _) _
        · obtain ⟨p0, hp0⟩ := List.exists_mem_of_ne_nil _ hpe
          have hrx : 1 ≤ rank x := by
            have h6 : rank p0 < rank x := hr (p0, x) (mem_predsOf.mp hp0)
            omega
          have hstep : ∀ t ∈ (predsOf es x).map (fun y => (es.length + 1) ^ rank y),
              t ≤ (es.length + 1) ^ (rank x - 1) := by
            intro t ht
            obtain ⟨p, hp, rfl⟩ := List.mem_map.mp ht
            have hlt : rank p < rank x := hr (p, x) (mem_predsOf.mp hp)
            exact Nat.pow_le_pow_right (Nat.succ_pos _) (by omega)
          have hsum := List.sum_le_card_nsmul _ _ hstep
          rw [List.length_map, smul_eq_mul] at hsum
          have hlen : (predsOf es x).length ≤ es.length := by
            unfold predsOf
            rw [List.length_map]
            exact List.length_filter_le _ _
          have h3 : (predsOf es x).length * (es.length + 1) ^ (rank x - 1)
              ≤ es.length * (es.length + 1) ^ (rank x - 1) :=
            Nat.mul_le_mul_right _ hlen
          have h4 : es.length * (es.length + 1) ^ (rank x - 1)
              < (es.length + 1) * (es.length + 1) ^ (rank x - 1) :=
            mul_lt_mul_of_pos_right (Nat.lt_succ_self _) (pow_pos (Nat.succ_pos _) _)
          have h5 : (es.length + 1) * (es.length + 1) ^ (rank x - 1)
              = (es.length + 1) ^ rank x := by
            rw [← pow_succ', Nat.sub_add_cancel hrx]
          omega
      have hdec : ((rest ++ predsOf es x).map (fun y => (es.length + 1) ^ rank y)).sum
          ≤ fuel := by
        rw [List.map_append, List.sum_append]
        have hm2 : ((x :: rest).map (fun y => (es.length + 1) ^ rank y)).sum
            = (es.length + 1) ^ rank x + (rest.map (fun y => (es.length + 1) ^ rank y)).sum := by
          rw [List.map_cons, List.sum_cons]
        omega
      obtain ⟨v, hv⟩ := ih (rest ++ predsOf es x) (if x ∈ acc then acc else acc ++ [x]) hdec
      exact ⟨v, hv⟩

/-- Claim C4: on a well-formed acyclic graph, for every selection of task ids,
`ordered_tasks` terminates for all sufficiently large iteration bounds on one
fixed duplicate-free sequence consisting exactly of the dependency closure of
the selection — a task appears iff it forward-reaches a selected task by
walking edges backward — topologically ordered; no task outside the closure
appears, in particular tasks that merely depend on the selection are
excluded. -/
theorem c4_selection_closure (g : SGraph)
    (hnd : g.tasks.Nodup)
    (hep : ∀ e ∈ g.edges, e.1 ∈ g.tasks ∧ e.2 ∈ g.tasks)
    (hnc : ¬ HasCycle g.edges)
    (names : List String)
    (hsel : ∀ s ∈ names, g.getItem s = some (Item.task s)) :
    ∃ l fuel0, (∀ fuel, fuel0 ≤ fuel →
        g.ordered_tasks (some (SelectArg.many names)) fuel = OTResult.ok l)
      ∧ l.Nodup
      ∧ (∀ x, x ∈ l ↔ ∃ s ∈ names, Reach g.edges x s)
      ∧ ∀ a b, (a, b) ∈ g.edges →
          (∃ s ∈ names, Reach g.edges b s) → [a, b].Sublist l := by
  obtain ⟨elems, ids, he, hi, hids⟩ := select_task_ids hsel
  obtain ⟨L, hL⟩ := kahnAux_complete g.edges hnc g.tasks.length g.tasks le_rfl
  have hLnd : L.Nodup := ((kahnAux_perm _ _ _ _ hL).symm).nodup hnd
  have hrank : ∀ e ∈ g.edges, L.indexOf e.1 < L.indexOf e.2 := by
    intro e heq
    have he2 : (e.1, e.2) ∈ g.edges := by
      rw [Prod.mk.eta]
      exact heq
    exact sublist_pair_indexOf_lt hLnd
      (kahnAux_edge_sublist g.edges _ _ _ _ _ hL he2 (hep _ heq).1 (hep _ heq).2)
  obtain ⟨v, hv⟩ := walkAux_terminates g.edges (fun x => L.indexOf x) hrank
    ((ids.map (fun x => (g.edges.length + 1) ^ L.indexOf x)).sum) ids [] le_rfl
  have hsound := walkAux_sound g.edges _ _ _ _ hv
  obtain ⟨hqv, -, hclosed⟩ := walkAux_complete g.edges _ _ _ _ hv
    (fun y hy => absurd hy (List.not_mem_nil y))
  have hvmem : ∀ x, x ∈ v ↔ ∃ s ∈ names, Reach g.edges x s := by
    intro x
    constructor
    · intro hx
      rcases hsound x hx with h0 | ⟨q, hq, hr⟩
      · cases h0
      · exact ⟨q, (hids q).mp hq, hr⟩
    · rintro ⟨s, hs, hr⟩
      exact mem_of_reach_closed hclosed hr (hqv s ((hids s).mpr hs))
  have hvtasks : ∀ x ∈ v, x ∈ g.tasks := by
    intro x hx
    obtain ⟨s, hs, hr⟩ := (hvmem x).mp hx
    cases hr with
    | refl => exact getItem_task_mem (hsel _ hs)
    | head he2 hr2 => exact (hep _ he2).1
  have hsubnd : (g.tasks.filter (fun t => decide (t ∈ v))).Nodup := hnd.filter _
  have hsubep : ∀ e ∈ g.edges.filter (fun e => decide (e.1 ∈ v ∧ e.2 ∈ v)),
      e.1 ∈ g.tasks.filter (fun t => decide (t ∈ v))
        ∧ e.2 ∈ g.tasks.filter (fun t => decide (t ∈ v)) := by
    intro e heq
    obtain ⟨h21, h22⟩ := List.mem_filter.mp heq
    rw [decide_eq_true_eq] at h22
    constructor
    · exact List.mem_filter.mpr ⟨(hep _ h21).1, by rw [decide_eq_true_eq]; exact h22.1⟩
    · exact List.mem_filter.mpr ⟨(hep _ h21).2, by rw [decide_eq_true_eq]; exact h22.2⟩
  have hsubnc : ¬ HasCycle (g.edges.filter (fun e => decide (e.1 ∈ v ∧ e.2 ∈ v))) :=
    fun hc => hnc (hasCycle_mono (fun e heq => (List.mem_filter.mp heq).1) hc)
  obtain ⟨l, hlsub⟩ := kahnAux_complete _ hsubnc
    (g.tasks.filter (fun t => decide (t ∈ v))).length
    (g.tasks.filter (fun t => decide (t ∈ v))) le_rfl
  have hperm := kahnAux_perm _ _ _ _ hlsub
  have hlv : ∀ x, x ∈ l ↔ x ∈ v := by
    intro x
    rw [hperm.mem_iff, List.mem_filter]
    constructor
    · rintro ⟨-, h2⟩
      rwa [decide_eq_true_eq] at h2
    · intro hx
      exact ⟨hvtasks x hx, by rw [decide_eq_true_eq]; exact hx⟩
  refine ⟨l, (ids.map (fun x => (g.edges.length + 1) ^ L.indexOf x)).sum, ?_,
    (hperm.symm).nodup hsubnd, ?_, ?_⟩
  · intro fuel hfuel
    have hv2 : walkAux g.edges fuel ids [] = some v := walkAux_mono _ _ _ _ _ hv fuel hfuel
    rw [ordered_tasks_resolve he hi fuel, sortClosure_of_walk hv2]
    rw [show topoSort (g.tasks.filter (fun t => decide (t ∈ v)))
        (g.edges.filter (fun e => decide (e.1 ∈ v ∧ e.2 ∈ v))) = some l from hlsub]
  · intro x
    rw [hlv x]
    exact hvmem x
  · intro a b heab hbcl
    have hbv : b ∈ v := (hvmem b).mpr hbcl
    have hav : a ∈ v := by
      apply (hvmem a).mpr
      obtain ⟨s, hs, hr⟩ := hbcl
      exact ⟨s, hs, reach_trans (Reach.head heab (Reach.refl b)) hr⟩
    have hesub : (a, b) ∈ g.edges.filter (fun e => decide (e.1 ∈ v ∧ e.2 ∈ v)) :=
      List.mem_filter.mpr ⟨heab, by rw [decide_eq_true_eq]; exact ⟨hav, hbv⟩⟩
    exact kahnAux_edge_sublist _ _ _ _ _ _ hlsub hesub
      (hsubep _ hesub).1 (hsubep _ hesub).2

/-- Claim C4 witness: selecting task `b` on the graph where `b` depends on `c`
and `a` is unrelated yields exactly the closure `[c, b]` in dependency order;
the unrelated task `a` and the closure membership of `c` are certified by the
closure characterization. -/
theorem c4_selection_closure_witness :
    depGraph.ordered_tasks (some (SelectArg.many ["b"])) 5 = OTResult.ok ["c", "b"]
    ∧ (["c", "b"] : List String).Nodup
    ∧ ("c" ∈ (["c", "b"] : List String) ↔ ∃ s ∈ ["b"], Reach depGraph.edges "c" s)
    ∧ ("a" ∈ (["c", "b"] : List String) ↔ ∃ s ∈ ["b"], Reach depGraph.edges "a" s) := by
  obtain ⟨l, fuel0, hfuel, hlnd, hlmem, hord⟩ := c4_selection_closure depGraph
    (by decide) (by decide)
    (acyclic_of_rank (fun s => if s = "c" then 0 else 1) (by decide))
    ["b"] (by decide)
  have hw5 : walkAux depGraph.edges 5 ["b"] [] = some ["b", "c"] := by decide
  have hwbig : walkAux depGraph.edges (fuel0 + 5) ["b"] [] = some ["b", "c"] :=
    walkAux_mono _ _ _ _ _ hw5 _ (by omega)
  have hbig : depGraph.ordered_tasks (some (SelectArg.many ["b"])) (fuel0 + 5)
      = OTResult.ok ["c", "b"] := by
    rw [ordered_tasks_resolve
      (rfl : depGraph.selectA (SelectArg.many ["b"]) = some [SelElem.task "b"])
      (rfl : elemIds [SelElem.task "b"] = some ["b"]) (fuel0 + 5),
      sortClosure_of_walk hwbig]
    decide
  have h1 := hfuel (fuel0 + 5) (Nat.le_add_right _ _)
  rw [h1] at hbig
  have hl : l = ["c", "b"] := by injection hbig
  subst hl
  exact ⟨by decide, hlnd, hlmem "c", hlmem "a"⟩

/-- Claim C1, evaluated at the failing input: executing a `PENDING` task whose
action raises `ValueError` sets the status to `ERROR` but records nothing in
the task's error field, and `execute` does not return control normally — the
`NameError` caused by the missing `import sys` in core.py escapes to the
caller, contradicting the docstring of `execute` (core.py lines 116-118). -/
theorem c1_error_not_recorded_and_raises :
    (runSteps { status := TaskStatus.PENDING, error := none }
        (executeRun TaskStatus.PENDING (ActionResult.fail "ValueError")).1).status
      = TaskStatus.ERROR
    ∧ (runSteps { status := TaskStatus.PENDING, error := none }
        (executeRun TaskStatus.PENDING (ActionResult.fail "ValueError")).1).error = none
    ∧ (executeRun TaskStatus.PENDING (ActionResult.fail "ValueError")).2
      = ExecOutcome.raised "NameError: name 'sys' is not defined" :=
  ⟨rfl, rfl, rfl⟩

/-- Claim C3, evaluated at the failing input: selecting the group `g1` returns
the plain string id of its sub-group instead of the tasks nested under it —
the result contains a non-`Task` element and omits the nested task
`g1:g2:t2`, so the sole caller (`ordered_tasks`) crashes reading `.id`. -/
theorem c3_select_returns_group_id_string :
    nestedGraph.select ["g1"] = some [SelElem.str "g1:g2"]
    ∧ SelElem.task "g1:g2:t2" ∉ [SelElem.str "g1:g2"] := by
  exact ⟨rfl, by decide⟩

/-- Claim C7 fails on the code: in the trace of an execution from `PENDING`, a
status write (the transition to `RUNNING`, core.py line 124) occurs strictly
before the `task.begin` emission (line 125). -/
theorem c7_status_set_before_begin :
    statusChangedBeforeBegin (executeRun TaskStatus.PENDING ActionResult.success).1 = true := by
  decide

/-- Claim C7 (amended): for every action outcome, `execute` from `PENDING`
emits `task.begin` after the transition to `RUNNING` but before any terminal
status write, and emits `task.end` only after the status has reached its final
value, also when the action fails. -/
theorem c7_amended_begin_end_discipline (act : ActionResult) :
    beginBeforeTerminal (executeRun TaskStatus.PENDING act).1 = true
    ∧ endAfterFinalStatus (executeRun TaskStatus.PENDING act).1 = true := by
  cases act <;> exact ⟨rfl, rfl⟩

/-- Claim C9: if `execute` is entered while the status is `PENDING`, then
whatever the action does — and whether `execute` returns normally or lets the
`NameError` escape — the final status is terminal: `SUCCESS`, `SKIPPED` or
`ERROR`, never `PENDING` or `RUNNING`.  Event emission (`trigger_event`) does
not touch the state, matching a sink that returns normally. -/
theorem c9_terminal_status (act : ActionResult) (ts : TaskState)
    (h : ts.status = TaskStatus.PENDING) :
    (runSteps ts (executeRun ts.status act).1).status = TaskStatus.SUCCESS
    ∨ (runSteps ts (executeRun ts.status act).1).status = TaskStatus.SKIPPED
    ∨ (runSteps ts (executeRun ts.status act).1).status = TaskStatus.ERROR := by
  rw [h]
  cases act <;> simp [executeRun, runSteps, applyStep]

/-- Claim C9 witness: a concrete successful run from `PENDING`. -/
theorem c9_terminal_status_witness :
    (runSteps { status := TaskStatus.PENDING, error := none }
        (executeRun ({ status := TaskStatus.PENDING, error := none } : TaskState).status
          ActionResult.success).1).status = TaskStatus.SUCCESS
    ∨ (runSteps { status := TaskStatus.PENDING, error := none }
        (executeRun ({ status := TaskStatus.PENDING, error := none } : TaskState).status
          ActionResult.success).1).status = TaskStatus.SKIPPED
    ∨ (runSteps { status := TaskStatus.PENDING, error := none }
        (executeRun ({ status := TaskStatus.PENDING, error := none } : TaskState).status
          ActionResult.success).1).status = TaskStatus.ERROR :=
  c9_terminal_status ActionResult.success { status := TaskStatus.PENDING, error := none } rfl

/-- Claim C10: selecting with a single string returns the same result as
selecting with the one-element list containing it, by the
`isinstance(value, str)` normalization at the top of `select`. -/
theorem c10_select_string_eq_singleton (g : SGraph) (s : String) :
    g.selectA (SelectArg.one s) = g.selectA (SelectArg.many [s]) := rfl

/-- Claim C8: with tasks `1`, `2`, `3` registered in that order and no edges,
`ordered_tasks()` returns them in insertion order; the modelled tie-breaking
rule is stable by insertion order, and as a pure function of the graph the
model is deterministic across runs by construction. -/
theorem c8_insertion_order (fuel : Nat) :
    graph123.ordered_tasks none fuel = OTResult.ok ["1", "2", "3"] := rfl

/-- Claim C6 fails on the code: `TaskGraph.add_group` at root level performs
no name-collision check, so adding a group named `g` to a graph that already
has a root group `g` succeeds (no error) and silently replaces the registered
group object. -/
theorem c6_root_add_group_overwrites :
    graphAddGroup { taskIds := [], groupReg := [("g", 0)], childT := [], childG := [] } "g" 1
      = AddOutcome.ok { taskIds := [], groupReg := [("g", 1)], childT := [], childG := [] } := by
  decide

/-- Claim C6 (amended): a sibling-name collision is rejected before any
mutation by `TaskGroup.add_task`, by `TaskGroup.add_group`, and by root-level
`TaskGraph.add_task` for task-vs-task collisions — the operation raises and
every registry is left unchanged; root-level `TaskGraph.add_group`, however,
performs no collision check and silently overwrites the existing root group
with the same id. -/
theorem c6_amended_collision_rejected (st : CState) (gid name : String) (tag : Nat) :
    ((name ∈ childGroupsOf st gid ∨ name ∈ childTasksOf st gid) →
      groupAddTask st gid name = AddOutcome.err st)
    ∧ ((name ∈ childGroupsOf st gid ∨ name ∈ childTasksOf st gid) →
      groupAddGroup st gid name tag = AddOutcome.err st)
    ∧ (name ∈ st.taskIds → graphAddTask st name = AddOutcome.err st) := by
  refine ⟨fun h => ?_, fun h => ?_, fun h => ?_⟩
  · by_cases hg : st.groupReg.lookup gid = none
    · unfold groupAddTask
      rw [if_pos hg]
    · unfold groupAddTask
      rw [if_neg hg, if_pos h]
  · by_cases hg : st.groupReg.lookup gid = none
    · unfold groupAddGroup
      rw [if_pos hg]
    · unfold groupAddGroup
      rw [if_neg hg, if_pos h]
  · unfold graphAddTask
    rw [if_pos h]

/-- Claim C6 witness: adding a task or a sub-group named `t` to `g1`, or a
root task named `r`, raises and leaves all registries unchanged. -/
theorem c6_amended_collision_rejected_witness :
    groupAddTask collisionState "g1" "t" = AddOutcome.err collisionState
    ∧ groupAddGroup collisionState "g1" "t" 7 = AddOutcome.err collisionState
    ∧ graphAddTask collisionState "r" = AddOutcome.err collisionState := by
  obtain ⟨h1, h2, _⟩ := c6_amended_collision_rejected collisionState "g1" "t" 7
  obtain ⟨_, _, h3⟩ := c6_amended_collision_rejected collisionState "g1" "r" 7
  exact ⟨h1 (by decide), h2 (by decide), h3 (by decide)⟩

end Shut
